import Mathlib

/-!
Verification development for the `nextbrain-utils` repository.

The Python sources are shallowly embedded:

* Strings are lists of Unicode code points (`List ℕ`); only the ASCII
  behaviour of `str.lower`, `str.strip` and the regex `\s` class matters
  for the functions modelled here, and it is reproduced exactly
  (whitespace codes 9-13 and 32, uppercase codes 65-90).
* Label volumes handled by the elementwise translators are flattened to
  `List ℕ` of voxel values; a numpy gather `table[vol]` becomes a `List.map`
  of a table lookup.
* Dense remap tables are `List ℕ` (or functions `ℕ → ℕ` when the Python
  array is indexed only through tree node ids).
* The affine volume stitcher works over exact rationals: a volume carries a
  3-d shape, a 4x4 rational affine and a voxel-value function on integer
  indices.  `np.round` (half to even) is modelled exactly on `ℚ`, and
  `np.linalg.inv` becomes the adjugate-based inverse.
-/

/-! ## Name normalizer (`to_allen.normalize_name`)

Characters are code points: 9-13 and 32 are the ASCII whitespace class of
both `str.strip` and the regex `\s`; 44 is a comma, 45 a dash, 95 an
underscore, 65-90 the uppercase letters. -/

/-- ASCII whitespace test: code 32 or codes 9-13 (`\t\n\v\f\r`).  This is
the set stripped by `str.strip()` and matched by `\s` on ASCII input. -/
def isSpaceCh (c : ℕ) : Bool :=
  c == 32 || (decide (9 ≤ c) && decide (c ≤ 13))

/-- ASCII lowercasing of one code point, as `str.lower` acts on ASCII. -/
def lowerCh (c : ℕ) : ℕ :=
  if 65 ≤ c ∧ c ≤ 90 then c + 32 else c

/-- Left strip: drop leading whitespace (`str.lstrip`). -/
def lstripStr (s : List ℕ) : List ℕ := s.dropWhile isSpaceCh

/-- Right strip: drop trailing whitespace (`str.rstrip`). -/
def rstripStr (s : List ℕ) : List ℕ := (s.reverse.dropWhile isSpaceCh).reverse

/-- Both-ends strip (`str.strip`). -/
def pstrip (s : List ℕ) : List ℕ := lstripStr (rstripStr s)

/-- Code points of `"ctx-"`. -/
def ctxCode : List ℕ := [99, 116, 120, 45]

/-- Code points of `"lh-"`. -/
def lhCode : List ℕ := [108, 104, 45]

/-- Code points of `"rh-"`. -/
def rhCode : List ℕ := [114, 104, 45]

/-- Code points of `"left-"`. -/
def leftCode : List ℕ := [108, 101, 102, 116, 45]

/-- One pass of `re.sub(r"\s+", " ", name)`: each maximal run of whitespace
becomes a single space (code 32).  The boolean flag records whether the
previous character was part of a whitespace run. -/
def collapseAux : Bool → List ℕ → List ℕ
  | _, [] => []
  | prevSpace, c :: rest =>
    if isSpaceCh c then
      if prevSpace then collapseAux true rest
      else 32 :: collapseAux true rest
    else c :: collapseAux false rest

/-- `re.sub(r"\s+", " ", s)`. -/
def collapseWS (s : List ℕ) : List ℕ := collapseAux false s

/-- `name.startswith("ctx-")` handling: drop a leading `"ctx-"`. -/
def ctxDrop (n : List ℕ) : List ℕ :=
  if n.take 4 = ctxCode then n.drop 4 else n

/-- `name.startswith(("lh-", "rh-"))` handling: drop a leading `"lh-"` or
`"rh-"`. -/
def hemiDrop (n : List ℕ) : List ℕ :=
  if n.take 3 = lhCode ∨ n.take 3 = rhCode then n.drop 3 else n

/-- `name.replace(",", "").replace("-", " ").replace("_", " ")`: remove
commas, then turn dashes and underscores into spaces. -/
def scrub (n : List ℕ) : List ℕ :=
  (n.filter (fun c => c ≠ 44)).map (fun c => if c = 45 ∨ c = 95 then 32 else c)

/-- The tail of the normalization pipeline after the prefix drops:
`re.sub(r"\s+", " ", name.replace(...)).strip()`. -/
def tailPipe (n : List ℕ) : List ℕ :=
  pstrip (collapseWS (scrub n))

/-- `to_allen.normalize_name`, line for line:
lowercase and strip; drop a leading `"ctx-"`; drop a leading `"lh-"` or
`"rh-"`; remove commas; replace dashes and underscores with spaces;
collapse whitespace runs and strip. -/
def normalize_name (s : List ℕ) : List ℕ :=
  tailPipe (hemiDrop (ctxDrop (pstrip (s.map lowerCh))))

/-! ## Label translator (single-table gather)

`to_allen.to_allen` line 104 and `simplify.simplify` line 92 both perform
`table[np.asarray(vol)]`: a pure elementwise gather.  Volumes are flattened
voxel lists; in numpy every voxel value must be a valid index into the
table, which the theorems carry as a hypothesis. -/

/-- `table[vol]`: elementwise gather of a remap table over a flattened
volume. -/
def translateVol (table vol : List ℕ) : List ℕ :=
  vol.map (fun v => table.getD v 0)

/-! ## Dual-table lateralized translator (`to_supersynth.to_supersynth`)

Lines 81-85: start from zeros, assign the left-table gather where the side
mask is 1, then the right-table gather where it is 2.  The two masks are
mutually exclusive (a voxel's side value is a single number), so the
sequential masked assignments act independently per voxel; the per-voxel
combination below replays the same two steps in the same order. -/

/-- Dual-table gather: `out = zeros; out[side==1] = tL[vol[side==1]];
out[side==2] = tR[vol[side==2]]`, voxel by voxel. -/
def dualGather (tL tR vol side : List ℕ) : List ℕ :=
  List.zipWith
    (fun v s =>
      let out0 : ℕ := 0
      let out1 := if s = 1 then tL.getD v 0 else out0
      if s = 2 then tR.getD v 0 else out1)
    vol side

/-! ## 16-bit compatibility rewrite (`to_allen.to_allen`, lines 75-101)

The four prefix masks are computed from the same array by `v // 1000`, so
they are pairwise disjoint and the four masked subtractions are equivalent
to one if-chain per entry.  The final `astype('i2')` is a C cast to a
signed 16-bit integer, i.e. reduction modulo 2^16 into [-32768, 32767]. -/

/-- Per-entry prefix compaction: subtract `146035000`, `146034000`,
`266440000 - 2000` or `267490000` from the entries whose `v // 1000` is
`146035`, `146034`, `266441` or `267499`. -/
def compact16 (v : ℕ) : ℕ :=
  if v / 1000 = 146035 then v - 146035000
  else if v / 1000 = 146034 then v - 146034000
  else if v / 1000 = 266441 then v - 266438000
  else if v / 1000 = 267499 then v - 267490000
  else v

/-- `astype('i2')`: wrap a non-negative integer into a signed 16-bit
value. -/
def astypeI2 (v : ℕ) : ℤ :=
  let r := v % 65536
  if r < 32768 then (r : ℤ) else (r : ℤ) - 65536

/-- The whole `compat16bits` table rewrite: compact the prefixed ranges,
then cast the table to int16.  It is total: no collision check of any kind
is performed. -/
def compat16Rewrite (table : List ℕ) : List ℤ :=
  (table.map compact16).map astypeI2

/-- The destination-ID ranges the source comments document as actually
occurring: `146035xxx` with suffix in [0, 199], `146034xxx` with suffix in
[600, 999], `266441xxx` and `267499xxx`. -/
def InDocRange (v : ℕ) : Prop :=
  (146035000 ≤ v ∧ v ≤ 146035199) ∨
  (146034600 ≤ v ∧ v ≤ 146034999) ∨
  (266441000 ≤ v ∧ v ≤ 266441999) ∨
  (267499000 ≤ v ∧ v ≤ 267499999)

instance : DecidablePred InDocRange := fun v => by unfold InDocRange; infer_instance

/-! ## Taxonomy walker for `simplify.get_allen2simple_map`

The ontology is a rooted tree of nodes with an integer id, a name, an
acronym and children (`children` absent is the empty list).  The
caller-supplied label set mixes integers and strings, modelled as a list
of `ℕ ⊕ List ℕ` (the function's own preprocessing of integer-like strings
happens before the traversal and is outside the claims).  The dense table
is modelled as a function `ℕ → ℕ` since the Python array is only read and
written through node ids. -/

/-- Ontology tree node: id, name, acronym, children. -/
inductive OntTree : Type where
  | node (nid : ℕ) (name acronym : List ℕ) (children : List OntTree) : OntTree

/-- The id of the root node. -/
def OntTree.nodeId : OntTree → ℕ
  | .node i _ _ _ => i

/-- The children of the root node. -/
def OntTree.childList : OntTree → List OntTree
  | .node _ _ _ cs => cs

mutual

/-- All node ids of a tree, root first (pre-order). -/
def idsOf : OntTree → List ℕ
  | .node i _ _ cs => i :: idsOfList cs

/-- All node ids of a forest, in order. -/
def idsOfList : List OntTree → List ℕ
  | [] => []
  | c :: cs => idsOf c ++ idsOfList cs

end

/-- The match test of `_recurse` (lines 55-60): the node's acronym, raw
name, normalized name or id appears in the label list. -/
def matchesLabels (labels : List (ℕ ⊕ List ℕ)) : OntTree → Bool
  | .node i nm ac _ =>
    labels.any (fun x => decide (x = Sum.inr ac)) ||
    labels.any (fun x => decide (x = Sum.inr nm)) ||
    labels.any (fun x => decide (x = Sum.inr (normalize_name nm))) ||
    labels.any (fun x => decide (x = Sum.inl i))

mutual

/-- `_recurse_map` (lines 45-48): write `target` at the node's id, then
recurse into every child. -/
def recurseMap : OntTree → ℕ → (ℕ → ℕ) → (ℕ → ℕ)
  | .node i _ _ cs, target, tbl => recurseMapList cs target (Function.update tbl i target)

/-- `_recurse_map` over a forest, left to right. -/
def recurseMapList : List OntTree → ℕ → (ℕ → ℕ) → (ℕ → ℕ)
  | [], _, tbl => tbl
  | c :: cs, target, tbl => recurseMapList cs target (recurseMap c target tbl)

end

mutual

/-- `_recurse` (lines 50-65): on a match, bulk-fill the whole subtree with
the matched node's id and stop; otherwise recurse into the children. -/
def simplifyRecurse (labels : List (ℕ ⊕ List ℕ)) : OntTree → (ℕ → ℕ) → (ℕ → ℕ)
  | .node i nm ac cs, tbl =>
    if matchesLabels labels (.node i nm ac cs) then
      recurseMap (.node i nm ac cs) i tbl
    else
      simplifyRecurseList labels cs tbl

/-- `_recurse` over a forest, left to right. -/
def simplifyRecurseList (labels : List (ℕ ⊕ List ℕ)) : List OntTree → (ℕ → ℕ) → (ℕ → ℕ)
  | [], tbl => tbl
  | c :: cs, tbl => simplifyRecurseList labels cs (simplifyRecurse labels c tbl)

end

/-! ## `to_supersynth.get_nextbrain2supersynth_map` (lines 126-183)

The table starts as the identity `arange(max_label + 1)`; for the left
side every entry with value at least 2000 is decreased by 1000; then the
yaml correspondence is applied as a sequence of single-index assignments
`table[label] = supersynth_id`.  The correspondence data and the
name-to-id resolution live in external data files, so the assignment
sequence is a parameter `entries` of already-resolved
(nextbrain label, supersynth id) pairs, applied in order exactly as the
nested `for` loops do. -/

/-- Brain hemisphere side. -/
inductive Side : Type where
  | L : Side
  | R : Side
deriving DecidableEq

/-- Build the NextBrain-to-SuperSynth remap table: identity init, the
left-side shift of values at least 2000 down by 1000, then the ordered
correspondence assignments. -/
def mkSupersynthMap (side : Side) (maxLabel : ℕ) (entries : List (ℕ × ℕ)) : List ℕ :=
  let init := List.range (maxLabel + 1)
  let shifted :=
    if side = Side.L then init.map (fun v => if 2000 ≤ v then v - 1000 else v) else init
  entries.foldl (fun t e => t.set e.1 e.2) shifted

/-! ## Affine volume stitcher (`combine_hemis.combine_hemis`)

Exact-arithmetic embedding: affines are 4x4 rational matrices, voxel data
is a function on integer 3-d indices.  `np.round` rounds halves to even;
`np.linalg.inv` is the rational matrix inverse (adjugate over
determinant).  The corner coordinates of the left volume are integers, so
rounding them through `ℚ` is exact and matches the integer arithmetic the
code performs on them.  The in-place `out[bbox] += data` placements
require each slice extent to equal the corresponding data extent, or numpy
raises a broadcast error: `combine_hemis` returns `none` in that case. -/

/-- `np.round` on an exact rational: round to nearest, halves to even. -/
def roundEven (q : ℚ) : ℤ :=
  let f := Int.floor q
  let r := q - f
  if r < 1/2 then f
  else if 1/2 < r then f + 1
  else if f % 2 = 0 then f else f + 1

/-- Minimum of a list, with a default for the (never used) empty case. -/
def foldMin {α : Type} [LinearOrder α] (l : List α) (d : α) : α :=
  match l with
  | [] => d
  | x :: xs => xs.foldl min x

/-- Maximum of a list, with a default for the (never used) empty case. -/
def foldMax {α : Type} [LinearOrder α] (l : List α) (d : α) : α :=
  match l with
  | [] => d
  | x :: xs => xs.foldl max x

/-- A label volume: a 3-d shape, a 4x4 voxel-to-world affine, and voxel
data indexed by integer coordinates (only indices inside `[0, shape)` are
ever read). -/
structure Volume : Type where
  shape : Fin 3 → ℕ
  affine : Matrix (Fin 4) (Fin 4) ℚ
  data : (Fin 3 → ℤ) → ℕ

/-- `np.linalg.inv` on an exact rational matrix: adjugate divided by the
determinant. -/
def affInv (A : Matrix (Fin 4) (Fin 4) ℚ) : Matrix (Fin 4) (Fin 4) ℚ :=
  A.det⁻¹ • A.adjugate

/-- `itertools.product([0, 1], [0, 1], [0, 1])`: the 8 corner selectors. -/
def bools3 : List (Fin 3 → Bool) :=
  [![false, false, false], ![false, false, true],
   ![false, true, false], ![false, true, true],
   ![true, false, false], ![true, false, true],
   ![true, true, false], ![true, true, true]]

/-- One corner of the voxel grid of shape `s`: coordinate `s i - 1` where
the selector is set, else `0` (`bbox * (shape - 1)`). -/
def cornerAt (s : Fin 3 → ℕ) (b : Fin 3 → Bool) : Fin 3 → ℚ :=
  fun i => if b i then (s i : ℚ) - 1 else 0

/-- The 8 corner coordinates of a voxel grid of shape `s`. -/
def cornerList (s : Fin 3 → ℕ) : List (Fin 3 → ℚ) :=
  bools3.map (cornerAt s)

/-- `right2left = inv(left.affine) @ right.affine`. -/
def right2left (l r : Volume) : Matrix (Fin 4) (Fin 4) ℚ :=
  affInv l.affine * r.affine

/-- Apply the affine `M` to a 3-d point:
`c @ M[:3, :3].T + M[:3, -1]`. -/
def mapCorner (M : Matrix (Fin 4) (Fin 4) ℚ) (c : Fin 3 → ℚ) : Fin 3 → ℚ :=
  fun i => (∑ j : Fin 3, M i.castSucc j.castSucc * c j) + M i.castSucc 3

/-- The right volume's corners mapped into left voxel space. -/
def rMapped (l r : Volume) : List (Fin 3 → ℚ) :=
  (cornerList r.shape).map (mapCorner (right2left l r))

/-- `left_bbox_min = np.round(left_bbox.min(0))`, per axis. -/
def lboxMin (l : Volume) (i : Fin 3) : ℤ :=
  roundEven (foldMin ((cornerList l.shape).map (fun c => c i)) 0)

/-- `left_bbox_max = np.round(left_bbox.max(0))`, per axis. -/
def lboxMax (l : Volume) (i : Fin 3) : ℤ :=
  roundEven (foldMax ((cornerList l.shape).map (fun c => c i)) 0)

/-- `right_bbox_min = np.round(right_bbox.min(0))` after mapping, per
axis. -/
def rboxMin (l r : Volume) (i : Fin 3) : ℤ :=
  roundEven (foldMin ((rMapped l r).map (fun c => c i)) 0)

/-- `right_bbox_max = np.round(right_bbox.max(0))` after mapping, per
axis. -/
def rboxMax (l r : Volume) (i : Fin 3) : ℤ :=
  roundEven (foldMax ((rMapped l r).map (fun c => c i)) 0)

/-- `bmin = np.minimum(left_bbox_min, right_bbox_min)`. -/
def bminC (l r : Volume) (i : Fin 3) : ℤ := min (lboxMin l i) (rboxMin l r i)

/-- `bmax = np.maximum(left_bbox_max, right_bbox_max)`. -/
def bmaxC (l r : Volume) (i : Fin 3) : ℤ := max (lboxMax l i) (rboxMax l r i)

/-- `shape = bmax - bmin + 1`. -/
def combShape (l r : Volume) (i : Fin 3) : ℤ := bmaxC l r i - bminC l r i + 1

/-- Start of the left sub-box inside the combined grid:
`left_bbox_min - bmin`. -/
def offL (l r : Volume) (i : Fin 3) : ℤ := lboxMin l i - bminC l r i

/-- Start of the right sub-box inside the combined grid:
`right_bbox_min - bmin`. -/
def offR (l r : Volume) (i : Fin 3) : ℤ := rboxMin l r i - bminC l r i

/-- Whether `idx` lies in the sub-box starting at `off` with extent `s`. -/
def inBox (off : Fin 3 → ℤ) (s : Fin 3 → ℕ) (idx : Fin 3 → ℤ) : Bool :=
  decide (∀ i, off i ≤ idx i ∧ idx i < off i + (s i : ℤ))

/-- `out = zeros(shape); out[left_bbox] += left; out[right_bbox] += right`:
each combined voxel is the sum of the (at most two) source voxels placed
there, values copied verbatim without resampling. -/
def combData (l r : Volume) (idx : Fin 3 → ℤ) : ℕ :=
  (if inBox (offL l r) l.shape idx then l.data (fun i => idx i - offL l r i) else 0) +
  (if inBox (offR l r) r.shape idx then r.data (fun i => idx i - offR l r i) else 0)

/-- `msk = zeros(shape, u1); msk[left_bbox] += (left > 0) * 1;
msk[right_bbox] += (right > 0) * 2`. -/
def combMask (l r : Volume) (idx : Fin 3 → ℤ) : ℕ :=
  (if inBox (offL l r) l.shape idx then
    (if 0 < l.data (fun i => idx i - offL l r i) then 1 else 0) else 0) +
  (if inBox (offR l r) r.shape idx then
    (if 0 < r.data (fun i => idx i - offR l r i) then 2 else 0) else 0)

/-- `comb2left = eye(4); comb2left[:3, -1] = bmin - left_bbox_min`. -/
def comb2left (l r : Volume) : Matrix (Fin 4) (Fin 4) ℚ :=
  Matrix.of fun i j =>
    (if i = j then 1 else 0) +
    (if h : i.val < 3 then
      (if j = 3 then ((bminC l r ⟨i.val, h⟩ - lboxMin l ⟨i.val, h⟩ : ℤ) : ℚ) else 0)
     else 0)

/-- `affine = left.affine @ comb2left`. -/
def combAffine (l r : Volume) : Matrix (Fin 4) (Fin 4) ℚ :=
  l.affine * comb2left l r

/-- The two in-place placements broadcast only when each slice extent
equals the corresponding data extent. -/
def extOk (l r : Volume) : Bool :=
  decide (∀ i, lboxMax l i - lboxMin l i + 1 = (l.shape i : ℤ) ∧
               rboxMax l r i - rboxMin l r i + 1 = (r.shape i : ℤ))

/-- The output of a successful stitch: shape, affine, combined data,
side mask. -/
structure Combined : Type where
  shape : Fin 3 → ℤ
  affine : Matrix (Fin 4) (Fin 4) ℚ
  data : (Fin 3 → ℤ) → ℕ
  mask : (Fin 3 → ℤ) → ℕ

/-- The value `combine_hemis` builds when the placements broadcast. -/
def mkCombined (l r : Volume) : Combined :=
  ⟨combShape l r, combAffine l r, combData l r, combMask l r⟩

/-- `combine_hemis.combine_hemis`: stitch two volumes (I/O and save paths
are outside the core; a failing broadcast is `none`). -/
def combine_hemis (l r : Volume) : Option Combined :=
  if extOk l r then some (mkCombined l r) else none

/-- The claim's oracle for the combined bounds: per-axis minimum over the
rounded union of the left corner set and the mapped right corner set. -/
def specBmin (l r : Volume) (i : Fin 3) : ℤ :=
  foldMin (((cornerList l.shape).map (fun c => roundEven (c i))) ++
           ((rMapped l r).map (fun c => roundEven (c i)))) 0

/-- The claim's oracle: per-axis maximum over the rounded union of the two
corner sets. -/
def specBmax (l r : Volume) (i : Fin 3) : ℤ :=
  foldMax (((cornerList l.shape).map (fun c => roundEven (c i))) ++
           ((rMapped l r).map (fun c => roundEven (c i)))) 0

/-- A one-voxel volume with identity affine and constant value `d`, used
for concrete instances of the stitcher claims. -/
def unitVol (d : ℕ) : Volume :=
  ⟨fun _ => 1, 1, fun _ => d⟩

/-! # Theorems -/

/-! ## C1: single-table translation is a pure gather -/

/-- Claim C1: for every input volume and every remap table, single-table
translation is a pure elementwise gather: the output voxel at every index
equals `table[input[idx]]`, with no other transformation of voxel
values. -/
theorem c1_translate_is_gather (table vol : List ℕ) (i : ℕ)
    (hi : i < vol.length) (hv : ∀ v ∈ vol, v < table.length) :
    (translateVol table vol).getD i 0 = table.getD (vol.getD i 0) 0 := by
  simp only [translateVol, List.getD_eq_getElem?_getD, List.getElem?_map]
  rw [List.getElem?_eq_getElem hi]
  simp [List.getD_eq_getElem?_getD, List.getElem?_eq_getElem hi]

/-- Witness for C1 at a concrete table and volume. -/
theorem c1_translate_is_gather_witness :
    (1 : ℕ) < [2, 0, 1].length ∧ (∀ v ∈ [2, 0, 1], v < [10, 20, 30].length) ∧
    (translateVol [10, 20, 30] [2, 0, 1]).getD 1 0 =
      [10, 20, 30].getD ([2, 0, 1].getD 1 0) 0 :=
  ⟨by decide, by decide,
    c1_translate_is_gather [10, 20, 30] [2, 0, 1] 1 (by decide) (by decide)⟩

/-! ## C8: dual-table lateralized translation -/

/-- Claim C8: in dual-table translation with a per-voxel side mask, a
voxel with side flag 1 receives the left-table remap of its input label, a
voxel with flag 2 the right-table remap, and a voxel with neither flag is
0 in the output. -/
theorem c8_dual_table_translation (tL tR vol side : List ℕ) (i : ℕ)
    (hi : i < vol.length) (hlen : side.length = vol.length)
    (hvL : ∀ v ∈ vol, v < tL.length) (hvR : ∀ v ∈ vol, v < tR.length) :
    (side.getD i 0 = 1 →
      (dualGather tL tR vol side).getD i 0 = tL.getD (vol.getD i 0) 0) ∧
    (side.getD i 0 = 2 →
      (dualGather tL tR vol side).getD i 0 = tR.getD (vol.getD i 0) 0) ∧
    (side.getD i 0 ≠ 1 → side.getD i 0 ≠ 2 →
      (dualGather tL tR vol side).getD i 0 = 0) := by
  have hi' : i < side.length := hlen ▸ hi
  simp only [dualGather, List.getD_eq_getElem?_getD, List.getElem?_zipWith,
    List.getElem?_eq_getElem hi, List.getElem?_eq_getElem hi', Option.getD_some]
  refine ⟨fun h => ?_, fun h => ?_, fun h1 h2 => ?_⟩
  · simp [h]
  · simp [h]
  · rw [if_neg h2, if_neg h1]

/-- Witness for C8 at a concrete pair of tables, volume and side mask. -/
theorem c8_dual_table_translation_witness :
    (0 : ℕ) < [2, 1, 0].length ∧ [1, 2, 0].length = [2, 1, 0].length ∧
    (∀ v ∈ [2, 1, 0], v < [10, 20, 30].length) ∧
    (∀ v ∈ [2, 1, 0], v < [40, 50, 60].length) ∧
    (([1, 2, 0].getD 0 0 = 1 →
      (dualGather [10, 20, 30] [40, 50, 60] [2, 1, 0] [1, 2, 0]).getD 0 0 =
        [10, 20, 30].getD ([2, 1, 0].getD 0 0) 0) ∧
    ([1, 2, 0].getD 0 0 = 2 →
      (dualGather [10, 20, 30] [40, 50, 60] [2, 1, 0] [1, 2, 0]).getD 0 0 =
        [40, 50, 60].getD ([2, 1, 0].getD 0 0) 0) ∧
    ([1, 2, 0].getD 0 0 ≠ 1 → [1, 2, 0].getD 0 0 ≠ 2 →
      (dualGather [10, 20, 30] [40, 50, 60] [2, 1, 0] [1, 2, 0]).getD 0 0 = 0)) :=
  ⟨by decide, by decide, by decide, by decide,
    c8_dual_table_translation [10, 20, 30] [40, 50, 60] [2, 1, 0] [1, 2, 0] 0
      (by decide) (by decide) (by decide) (by decide)⟩

/-! ## C2: 16-bit compatibility rewrite has no collision detection -/

/-- Counterexample to claim C2: the rewrite is a total function that
returns normally; the distinct destination IDs 50 and 146035050 both
compact to 50, producing a silent collision (no detectable failure of any
kind is produced). -/
theorem c2_counterexample_silent_collision :
    compat16Rewrite [50, 146035050] = [50, 50] ∧ (50 : ℕ) ≠ 146035050 := by
  constructor
  · rfl
  · decide

/-- Claim C2 (amended): for values inside the documented prefixed ranges
the compaction keeps every value below 2^15 (so the int16 cast preserves
it) and is injective, hence unique values stay unique; but nothing checks
this at run time, and a collision with a value outside those ranges passes
silently (see the counterexample). -/
theorem c2_compaction_on_documented_ranges (v w : ℕ)
    (hv : InDocRange v) (hw : InDocRange w) :
    compact16 v < 32768 ∧ astypeI2 (compact16 v) = (compact16 v : ℤ) ∧
    (compact16 v = compact16 w → v = w) := by
  unfold InDocRange at hv hw
  simp only [compact16, astypeI2]
  split_ifs <;> omega

/-- Witness for C2's amended statement at two concrete in-range values. -/
theorem c2_compaction_on_documented_ranges_witness :
    InDocRange 146035050 ∧ InDocRange 266441123 ∧
    (compact16 146035050 < 32768 ∧
     astypeI2 (compact16 146035050) = (compact16 146035050 : ℤ) ∧
     (compact16 146035050 = compact16 266441123 → 146035050 = 266441123)) :=
  ⟨by decide, by decide,
    c2_compaction_on_documented_ranges 146035050 266441123 (by decide) (by decide)⟩

/-! ## C10: left-side cortical shift in the SuperSynth map -/

/-- Applying the correspondence assignments preserves the table length. -/
theorem foldlSet_length (entries : List (ℕ × ℕ)) (t : List ℕ) :
    (entries.foldl (fun t e => t.set e.1 e.2) t).length = t.length := by
  induction entries generalizing t with
  | nil => rfl
  | cons e es ih => simp [List.foldl_cons, ih, List.length_set]

/-- An index named by no assignment keeps its pre-assignment value. -/
theorem foldlSet_getD_of_not_named (entries : List (ℕ × ℕ)) (t : List ℕ) (i : ℕ)
    (h : ∀ e ∈ entries, e.1 ≠ i) :
    (entries.foldl (fun t e => t.set e.1 e.2) t).getD i 0 = t.getD i 0 := by
  induction entries generalizing t with
  | nil => rfl
  | cons e es ih =>
    rw [List.foldl_cons, ih _ (fun e' he' => h e' (List.mem_cons_of_mem _ he'))]
    simp only [List.getD_eq_getElem?_getD]
    rw [List.getElem?_set_ne (h e (List.mem_cons_self e es))]

/-- Claim C10: in `get_nextbrain2supersynth_map`, for side LEFT every
identity-initialized entry with value at least 2000 is decreased by 1000
before any correspondence entry is applied (for side RIGHT no entry is
shifted), and correspondence assignments afterwards overwrite the shifted
entries at the indices they name. -/
theorem c10_supersynth_left_shift (maxLabel : ℕ) (entries : List (ℕ × ℕ))
    (i : ℕ) (hi : i < maxLabel + 1) :
    ((∀ e ∈ entries, e.1 ≠ i) →
      (mkSupersynthMap Side.L maxLabel entries).getD i 0 =
        (if 2000 ≤ i then i - 1000 else i) ∧
      (mkSupersynthMap Side.R maxLabel entries).getD i 0 = i) ∧
    (∀ (pre post : List (ℕ × ℕ)) (d : ℕ),
      entries = pre ++ (i, d) :: post → (∀ e ∈ post, e.1 ≠ i) →
      ∀ s : Side, (mkSupersynthMap s maxLabel entries).getD i 0 = d) := by
  have hinit : ∀ s : Side,
      (if s = Side.L then
        (List.range (maxLabel + 1)).map (fun v => if 2000 ≤ v then v - 1000 else v)
       else List.range (maxLabel + 1)).length = maxLabel + 1 := by
    intro s; cases s <;> simp
  constructor
  · intro hnm
    constructor
    · rw [mkSupersynthMap, foldlSet_getD_of_not_named _ _ _ hnm]
      simp [List.getD_eq_getElem?_getD, List.getElem?_range hi]
    · rw [mkSupersynthMap, foldlSet_getD_of_not_named _ _ _ hnm]
      simp [List.getD_eq_getElem?_getD, List.getElem?_range hi]
  · intro pre post d hsplit hnm s
    rw [mkSupersynthMap, hsplit, List.foldl_append, List.foldl_cons,
      foldlSet_getD_of_not_named _ _ _ hnm]
    have hlen : i < ((pre.foldl (fun t e => t.set e.1 e.2)
        (if s = Side.L then
          (List.range (maxLabel + 1)).map (fun v => if 2000 ≤ v then v - 1000 else v)
         else List.range (maxLabel + 1)))).length := by
      rw [foldlSet_length, hinit s]; exact hi
    simp only [List.getD_eq_getElem?_getD]
    rw [List.getElem?_set_self hlen]
    rfl

/-- Witness for C10 at a concrete table size and assignment list. -/
theorem c10_supersynth_left_shift_witness :
    (2500 : ℕ) < 3000 + 1 ∧
    (((∀ e ∈ [((7 : ℕ), (3 : ℕ)), (2500, 42)], e.1 ≠ 2500) →
      (mkSupersynthMap Side.L 3000 [(7, 3), (2500, 42)]).getD 2500 0 =
        (if 2000 ≤ 2500 then 2500 - 1000 else 2500) ∧
      (mkSupersynthMap Side.R 3000 [(7, 3), (2500, 42)]).getD 2500 0 = 2500) ∧
    (∀ (pre post : List (ℕ × ℕ)) (d : ℕ),
      [((7 : ℕ), (3 : ℕ)), (2500, 42)] = pre ++ (2500, d) :: post →
      (∀ e ∈ post, e.1 ≠ 2500) →
      ∀ s : Side,
        (mkSupersynthMap s 3000 [(7, 3), (2500, 42)]).getD 2500 0 = d)) :=
  ⟨by decide, c10_supersynth_left_shift 3000 [(7, 3), (2500, 42)] 2500 (by decide)⟩

/-! ## C6: match-and-stop bulk fill in `get_allen2simple_map` -/

mutual

/-- `_recurse_map` writes the target at every subtree id and nothing
else. -/
theorem recurseMap_apply (t : OntTree) (v : ℕ) (tbl : ℕ → ℕ) (j : ℕ) :
    recurseMap t v tbl j = if j ∈ idsOf t then v else tbl j := by
  cases t with
  | node i nm ac cs =>
    rw [recurseMap, recurseMapList_apply]
    by_cases h1 : j ∈ idsOfList cs
    · simp [h1, idsOf]
    · by_cases h2 : j = i
      · simp [h1, h2, idsOf, Function.update_apply]
      · simp [h1, h2, idsOf, Function.update_apply]

/-- `_recurse_map` over a forest writes the target at every id of the
forest and nothing else. -/
theorem recurseMapList_apply (l : List OntTree) (v : ℕ) (tbl : ℕ → ℕ) (j : ℕ) :
    recurseMapList l v tbl j = if j ∈ idsOfList l then v else tbl j := by
  cases l with
  | nil => simp [recurseMapList, idsOfList]
  | cons c cs =>
    rw [recurseMapList, recurseMapList_apply, recurseMap_apply]
    by_cases h1 : j ∈ idsOfList cs
    · simp [h1, idsOfList]
    · by_cases h2 : j ∈ idsOf c
      · simp [h1, h2, idsOfList]
      · simp [h1, h2, idsOfList]

end

/-- Claim C6: in the match-and-stop traversal, a node that matches the
caller-supplied label set has the destination value (the matched node's
id) assigned to itself and to every descendant by the bulk fill, and the
walk does not recurse into the matched subtree (it is exactly the bulk
fill); so all descendants of a matched node map to the same destination
value. -/
theorem c6_bulk_fill (labels : List (ℕ ⊕ List ℕ)) (t : OntTree) (tbl : ℕ → ℕ)
    (hm : matchesLabels labels t = true) :
    simplifyRecurse labels t tbl = recurseMap t t.nodeId tbl ∧
    ∀ j ∈ idsOf t, simplifyRecurse labels t tbl j = t.nodeId := by
  obtain ⟨i, nm, ac, cs⟩ := t
  have h1 : simplifyRecurse labels (.node i nm ac cs) tbl =
      recurseMap (.node i nm ac cs) i tbl := by
    rw [simplifyRecurse, if_pos hm]
  refine ⟨h1, fun j hj => ?_⟩
  rw [h1, recurseMap_apply, if_pos hj]
  rfl

/-- Witness for C6: a two-level tree whose root (id 10) matches the label
set by id; both children ids map to 10. -/
theorem c6_bulk_fill_witness :
    matchesLabels [Sum.inl 10] (OntTree.node 10 [97] [98]
      [OntTree.node 3 [99] [100] [], OntTree.node 4 [101] [102] []]) = true ∧
    (simplifyRecurse [Sum.inl 10]
        (OntTree.node 10 [97] [98]
          [OntTree.node 3 [99] [100] [], OntTree.node 4 [101] [102] []]) id =
      recurseMap
        (OntTree.node 10 [97] [98]
          [OntTree.node 3 [99] [100] [], OntTree.node 4 [101] [102] []])
        (OntTree.node 10 [97] [98]
          [OntTree.node 3 [99] [100] [], OntTree.node 4 [101] [102] []]).nodeId id ∧
    ∀ j ∈ idsOf (OntTree.node 10 [97] [98]
        [OntTree.node 3 [99] [100] [], OntTree.node 4 [101] [102] []]),
      simplifyRecurse [Sum.inl 10]
        (OntTree.node 10 [97] [98]
          [OntTree.node 3 [99] [100] [], OntTree.node 4 [101] [102] []]) id j =
      (OntTree.node 10 [97] [98]
        [OntTree.node 3 [99] [100] [], OntTree.node 4 [101] [102] []]).nodeId) :=
  ⟨by decide,
    c6_bulk_fill [Sum.inl 10]
      (OntTree.node 10 [97] [98]
        [OntTree.node 3 [99] [100] [], OntTree.node 4 [101] [102] []]) id
      (by decide)⟩

/-! ## Normalizer lemmas (towards C5 and C9) -/

/-- ASCII lowercasing is idempotent. -/
theorem lowerCh_idem (c : ℕ) : lowerCh (lowerCh c) = lowerCh c := by
  unfold lowerCh
  split_ifs <;> omega

/-- A whitespace code is not a comma, dash or underscore. -/
theorem isSpaceCh_spec (c : ℕ) :
    isSpaceCh c = true ↔ (c = 32 ∨ (9 ≤ c ∧ c ≤ 13)) := by
  simp [isSpaceCh]

/-- Mapping a function that fixes every element is the identity. -/
theorem map_fix {α : Type} (f : α → α) (l : List α) (h : ∀ c ∈ l, f c = c) :
    l.map f = l := by
  induction l with
  | nil => rfl
  | cons a l ih =>
    rw [List.map_cons, h a (List.mem_cons_self a l),
      ih (fun c hc => h c (List.mem_cons_of_mem a hc))]

/-- Membership survives `dropWhile`. -/
theorem mem_of_mem_dropWhile {α : Type} (p : α → Bool) (l : List α) (c : α)
    (h : c ∈ l.dropWhile p) : c ∈ l :=
  (List.dropWhile_sublist p).subset h

/-- Membership survives `rstripStr`. -/
theorem mem_of_mem_rstrip (s : List ℕ) (c : ℕ) (h : c ∈ rstripStr s) : c ∈ s := by
  rw [rstripStr, List.mem_reverse] at h
  exact List.mem_reverse.mp (mem_of_mem_dropWhile _ _ _ h)

/-- Membership survives `pstrip`. -/
theorem mem_of_mem_pstrip (s : List ℕ) (c : ℕ) (h : c ∈ pstrip s) : c ∈ s :=
  mem_of_mem_rstrip _ _ (mem_of_mem_dropWhile _ _ _ h)

/-- The head of a `dropWhile` result fails the predicate. -/
theorem head?_dropWhile {α : Type} (p : α → Bool) (l : List α) (c : α)
    (h : (l.dropWhile p).head? = some c) : p c = false := by
  induction l with
  | nil => simp at h
  | cons a l ih =>
    rw [List.dropWhile_cons] at h
    by_cases hp : p a = true
    · exact ih (by rwa [if_pos hp] at h)
    · rw [if_neg hp, List.head?_cons] at h
      cases h
      exact Bool.eq_false_iff.mpr hp

/-- `dropWhile` is the identity when the head fails the predicate. -/
theorem dropWhile_eq_self {α : Type} (p : α → Bool) (l : List α)
    (h : ∀ c, l.head? = some c → p c = false) : l.dropWhile p = l := by
  cases l with
  | nil => rfl
  | cons a l =>
    rw [List.dropWhile_cons, if_neg]
    simp [h a rfl]

/-- `lstripStr` is the identity when the head is not whitespace. -/
theorem lstrip_eq_self (s : List ℕ)
    (h : ∀ c, s.head? = some c → isSpaceCh c = false) : lstripStr s = s :=
  dropWhile_eq_self _ _ h

/-- `rstripStr` is the identity when the last element is not whitespace. -/
theorem rstrip_eq_self (s : List ℕ)
    (h : ∀ c, s.getLast? = some c → isSpaceCh c = false) : rstripStr s = s := by
  rw [rstripStr, dropWhile_eq_self _ _ (fun c hc => h c (by
    rwa [← List.head?_reverse])), List.reverse_reverse]

/-- The head of an `lstripStr` result is not whitespace. -/
theorem head?_lstrip (s : List ℕ) (c : ℕ) (h : (lstripStr s).head? = some c) :
    isSpaceCh c = false :=
  head?_dropWhile _ _ _ h

/-- The last element of an `rstripStr` result is not whitespace. -/
theorem getLast?_rstrip (s : List ℕ) (c : ℕ)
    (h : (rstripStr s).getLast? = some c) : isSpaceCh c = false := by
  rw [rstripStr, List.getLast?_reverse] at h
  exact head?_dropWhile _ _ _ h

/-- `lstripStr` keeps the last element when its result is nonempty. -/
theorem getLast?_lstrip (s : List ℕ) (h : lstripStr s ≠ []) :
    (lstripStr s).getLast? = s.getLast? := by
  induction s with
  | nil => rfl
  | cons a l ih =>
    by_cases hp : isSpaceCh a = true
    · have hls : lstripStr (a :: l) = lstripStr l := by
        rw [lstripStr, List.dropWhile_cons, if_pos hp]; rfl
      rw [hls] at h ⊢
      rw [ih h]
      cases l with
      | nil => exact absurd rfl h
      | cons b m => rw [List.getLast?_cons_cons]
    · have hls : lstripStr (a :: l) = a :: l := by
        rw [lstripStr, List.dropWhile_cons, if_neg hp]
      rw [hls]

/-- The last element of a `pstrip` result is not whitespace. -/
theorem getLast?_pstrip (s : List ℕ) (c : ℕ)
    (h : (pstrip s).getLast? = some c) : isSpaceCh c = false := by
  by_cases hne : pstrip s = []
  · rw [hne] at h
    simp at h
  · rw [pstrip, getLast?_lstrip _ hne] at h
    exact getLast?_rstrip _ _ h

/-- `pstrip` is idempotent. -/
theorem pstrip_idem (s : List ℕ) : pstrip (pstrip s) = pstrip s := by
  rw [pstrip, rstrip_eq_self (pstrip s) (getLast?_pstrip s),
    lstrip_eq_self (pstrip s) (fun c hc => head?_lstrip _ _ hc)]

/-- `rstripStr` over an append: strip the right part; if it strips away
entirely, continue into the left part. -/
theorem rstrip_append (a b : List ℕ) :
    rstripStr (a ++ b) =
      if rstripStr b = [] then rstripStr a else a ++ rstripStr b := by
  rw [rstripStr, List.reverse_append, List.dropWhile_append]
  by_cases hb : (List.dropWhile isSpaceCh b.reverse).isEmpty = true
  · rw [if_pos hb]
    have : rstripStr b = [] := by
      rw [rstripStr, List.isEmpty_iff.mp hb]
      rfl
    rw [if_pos this]
    rfl
  · rw [if_neg hb, List.reverse_append, List.reverse_reverse]
    have : rstripStr b ≠ [] := by
      rw [rstripStr]
      intro hc
      exact hb (List.isEmpty_iff.mpr (by
        have := congrArg List.reverse hc
        rwa [List.reverse_reverse] at this))
    rw [if_neg this]
    rfl

/-- Stripping absorbs a leading space. -/
theorem pstrip_cons32 (x : List ℕ) : pstrip (32 :: x) = pstrip x := by
  have h32 : rstripStr [32] = [] := rfl
  have happ := rstrip_append [32] x
  rw [List.singleton_append] at happ
  by_cases hx : rstripStr x = []
  · rw [pstrip, happ, if_pos hx, h32, pstrip, hx]
  · rw [pstrip, happ, if_neg hx, List.singleton_append, pstrip, lstripStr,
      List.dropWhile_cons, if_pos (by decide : isSpaceCh 32 = true)]
    rfl

/-- Every character a collapse emits is a space (code 32) or a non-space
character of the input. -/
theorem mem_collapseAux (w : List ℕ) (b : Bool) (c : ℕ)
    (h : c ∈ collapseAux b w) :
    c = 32 ∨ (c ∈ w ∧ isSpaceCh c = false) := by
  induction w generalizing b with
  | nil => simp [collapseAux] at h
  | cons a l ih =>
    rw [collapseAux] at h
    by_cases hsp : isSpaceCh a = true
    · rw [if_pos hsp] at h
      by_cases hb : b = true
      · rcases ih true (by rwa [hb, if_pos rfl] at h) with h32 | ⟨hm, hns⟩
        · exact Or.inl h32
        · exact Or.inr ⟨List.mem_cons_of_mem a hm, hns⟩
      · rw [Bool.not_eq_true] at hb
        rw [hb, if_neg Bool.false_ne_true, List.mem_cons] at h
        rcases h with h32 | h
        · exact Or.inl h32
        · rcases ih true h with h32 | ⟨hm, hns⟩
          · exact Or.inl h32
          · exact Or.inr ⟨List.mem_cons_of_mem a hm, hns⟩
    · rw [if_neg hsp, List.mem_cons] at h
      rcases h with hc | h
      · exact Or.inr ⟨hc ▸ List.mem_cons_self a l,
          hc ▸ Bool.eq_false_iff.mpr hsp⟩
      · rcases ih false h with h32 | ⟨hm, hns⟩
        · exact Or.inl h32
        · exact Or.inr ⟨List.mem_cons_of_mem a hm, hns⟩

/-- The head of an already-in-run collapse is not a space. -/
theorem head?_collapseAux_true (m : List ℕ) (c : ℕ)
    (h : (collapseAux true m).head? = some c) : isSpaceCh c = false := by
  induction m with
  | nil => simp [collapseAux] at h
  | cons a l ih =>
    rw [collapseAux] at h
    by_cases hsp : isSpaceCh a = true
    · rw [if_pos hsp, if_pos rfl] at h
      exact ih h
    · rw [if_neg hsp, List.head?_cons] at h
      cases h
      exact Bool.eq_false_iff.mpr hsp

/-- A collapse result never has two adjacent whitespace characters. -/
theorem chain'_collapseAux (m : List ℕ) (b : Bool) :
    List.Chain' (fun a c => ¬(isSpaceCh a = true ∧ isSpaceCh c = true))
      (collapseAux b m) := by
  induction m generalizing b with
  | nil => simp [collapseAux]
  | cons a l ih =>
    rw [collapseAux]
    by_cases hsp : isSpaceCh a = true
    · rw [if_pos hsp]
      by_cases hb : b = true
      · rw [hb, if_pos rfl]
        exact ih true
      · rw [Bool.not_eq_true] at hb
        rw [hb, if_neg Bool.false_ne_true]
        rw [List.chain'_cons']
        refine ⟨fun y hy => ?_, ih true⟩
        intro ⟨_, hy2⟩
        exact absurd hy2 (by
          simp [head?_collapseAux_true l y hy])
    · rw [if_neg hsp, List.chain'_cons']
      refine ⟨fun y hy => ?_, ih false⟩
      intro ⟨hy1, _⟩
      exact absurd hy1 (by simp [hsp])

/-- A collapse pass is the identity on a string whose whitespace is all
code 32 with no two adjacent whitespace characters (and, for an in-run
pass, whose head is not whitespace). -/
theorem collapseAux_eq_self (t : List ℕ)
    (hsp : ∀ c ∈ t, isSpaceCh c = true → c = 32)
    (hch : List.Chain' (fun a c => ¬(isSpaceCh a = true ∧ isSpaceCh c = true)) t) :
    collapseAux false t = t ∧
    ((∀ c, t.head? = some c → isSpaceCh c = false) → collapseAux true t = t) := by
  induction t with
  | nil => exact ⟨rfl, fun _ => rfl⟩
  | cons a l ih =>
    have hsp' := fun c hc => hsp c (List.mem_cons_of_mem a hc)
    have hch' := (List.chain'_cons'.mp hch).2
    have hR := (List.chain'_cons'.mp hch).1
    obtain ⟨ihf, iht⟩ := ih hsp' hch'
    by_cases ha : isSpaceCh a = true
    · have ha32 : a = 32 := hsp a (List.mem_cons_self a l) ha
      constructor
      · rw [collapseAux, if_pos ha, if_neg Bool.false_ne_true, ha32]
        rw [iht (fun c hc => ?_)]
        have := hR c (by simp [hc])
        by_contra hcs
        rw [Bool.not_eq_false] at hcs
        exact this ⟨ha, hcs⟩
      · intro hhead
        exact absurd (hhead a rfl) (by simp [ha])
    · constructor
      · rw [collapseAux, if_neg ha, ihf]
      · intro _
        rw [collapseAux, if_neg ha, ihf]

/-- `dropWhile` preserves chains. -/
theorem chain'_dropWhile {α : Type} (R : α → α → Prop) (p : α → Bool)
    (l : List α) (h : List.Chain' R l) : List.Chain' R (l.dropWhile p) := by
  induction l with
  | nil => simpa using h
  | cons a l ih =>
    rw [List.dropWhile_cons]
    by_cases hp : p a = true
    · rw [if_pos hp]
      exact ih (List.chain'_cons'.mp h).2
    · rw [if_neg hp]
      exact h

/-- `rstripStr` preserves the no-adjacent-whitespace chain. -/
theorem chain'_rstrip (s : List ℕ)
    (h : List.Chain' (fun a c => ¬(isSpaceCh a = true ∧ isSpaceCh c = true)) s) :
    List.Chain' (fun a c => ¬(isSpaceCh a = true ∧ isSpaceCh c = true))
      (rstripStr s) := by
  have hsymm : ∀ a c : ℕ,
      (fun a c => ¬(isSpaceCh a = true ∧ isSpaceCh c = true)) a c →
      flip (fun a c => ¬(isSpaceCh a = true ∧ isSpaceCh c = true)) a c :=
    fun a c hac => fun ⟨x, y⟩ => hac ⟨y, x⟩
  rw [rstripStr]
  exact List.chain'_reverse.mpr
    ((chain'_dropWhile _ _ _ (List.chain'_reverse.mpr (h.imp hsymm))).imp hsymm)

/-- `pstrip` preserves the no-adjacent-whitespace chain. -/
theorem chain'_pstrip (s : List ℕ)
    (h : List.Chain' (fun a c => ¬(isSpaceCh a = true ∧ isSpaceCh c = true)) s) :
    List.Chain' (fun a c => ¬(isSpaceCh a = true ∧ isSpaceCh c = true))
      (pstrip s) := by
  rw [pstrip, lstripStr]
  exact chain'_dropWhile _ _ _ (chain'_rstrip _ h)

/-- `ctxDrop` only removes characters. -/
theorem mem_ctxDrop (n : List ℕ) (c : ℕ) (h : c ∈ ctxDrop n) : c ∈ n := by
  rw [ctxDrop] at h
  split at h
  · exact List.drop_subset _ _ h
  · exact h

/-- `hemiDrop` only removes characters. -/
theorem mem_hemiDrop (n : List ℕ) (c : ℕ) (h : c ∈ hemiDrop n) : c ∈ n := by
  rw [hemiDrop] at h
  split at h
  · exact List.drop_subset _ _ h
  · exact h

/-- Every character of a normalized name is fixed by lowercasing, is not a
comma, dash or underscore, and is code 32 if it is whitespace at all. -/
theorem mem_normalize (s : List ℕ) (c : ℕ) (hc : c ∈ normalize_name s) :
    lowerCh c = c ∧ c ≠ 44 ∧ c ≠ 45 ∧ c ≠ 95 ∧ (isSpaceCh c = true → c = 32) := by
  rw [normalize_name, tailPipe] at hc
  have h1 := mem_of_mem_pstrip _ _ hc
  rw [collapseWS] at h1
  rcases mem_collapseAux _ _ _ h1 with h32 | ⟨h5, hns⟩
  · subst h32
    exact ⟨rfl, by decide, by decide, by decide, fun _ => rfl⟩
  · rw [scrub, List.mem_map] at h5
    obtain ⟨d, hd4, hdc⟩ := h5
    by_cases hd : d = 45 ∨ d = 95
    · rw [if_pos hd] at hdc
      subst hdc
      exact absurd hns (by decide)
    · rw [if_neg hd] at hdc
      subst hdc
      rw [List.mem_filter] at hd4
      obtain ⟨hd3, hd44⟩ := hd4
      have hd44' : d ≠ 44 := by simpa using hd44
      have hd1 : d ∈ pstrip (s.map lowerCh) :=
        mem_ctxDrop _ _ (mem_hemiDrop _ _ hd3)
      have hdm : d ∈ s.map lowerCh := mem_of_mem_pstrip _ _ hd1
      rw [List.mem_map] at hdm
      obtain ⟨e, _, hde⟩ := hdm
      refine ⟨hde ▸ lowerCh_idem e, hd44', fun h => hd (Or.inl h),
        fun h => hd (Or.inr h), fun h => absurd h (by simp [hns])⟩

/-- `normalize_name` is the identity on canonical strings: every character
lowercase-fixed, no comma/dash/underscore, all whitespace a single space,
no two adjacent spaces, stripped at both ends. -/
theorem normalize_fixes (s : List ℕ)
    (hlower : ∀ c ∈ s, lowerCh c = c)
    (hpunct : ∀ c ∈ s, c ≠ 44 ∧ c ≠ 45 ∧ c ≠ 95)
    (hsp32 : ∀ c ∈ s, isSpaceCh c = true → c = 32)
    (hch : List.Chain' (fun a c => ¬(isSpaceCh a = true ∧ isSpaceCh c = true)) s)
    (hhead : ∀ c, s.head? = some c → isSpaceCh c = false)
    (hlast : ∀ c, s.getLast? = some c → isSpaceCh c = false) :
    normalize_name s = s := by
  have hmap : s.map lowerCh = s := map_fix _ _ hlower
  have hps : pstrip s = s := by
    rw [pstrip, rstrip_eq_self _ hlast, lstrip_eq_self _ hhead]
  have hctx : ¬(s.take 4 = ctxCode) := by
    intro h
    have h45 : 45 ∈ s := List.take_subset 4 s (by rw [h]; simp [ctxCode])
    exact (hpunct 45 h45).2.1 rfl
  have hlh : ¬(s.take 3 = lhCode) := by
    intro h
    have h45 : 45 ∈ s := List.take_subset 3 s (by rw [h]; simp [lhCode])
    exact (hpunct 45 h45).2.1 rfl
  have hrh : ¬(s.take 3 = rhCode) := by
    intro h
    have h45 : 45 ∈ s := List.take_subset 3 s (by rw [h]; simp [rhCode])
    exact (hpunct 45 h45).2.1 rfl
  have hfil : s.filter (fun c => c ≠ 44) = s :=
    List.filter_eq_self.mpr (fun a ha => by simp [(hpunct a ha).1])
  have hdash : s.map (fun c => if c = 45 ∨ c = 95 then 32 else c) = s :=
    map_fix _ _ (fun c hcm => by
      rw [if_neg (by simp [(hpunct c hcm).2.1, (hpunct c hcm).2.2])])
  have hcol : collapseWS s = s := by
    rw [collapseWS]
    exact (collapseAux_eq_self s hsp32 hch).1
  have hscrub : scrub s = s := by rw [scrub, hfil, hdash]
  rw [normalize_name, hmap, hps, ctxDrop, if_neg hctx, hemiDrop,
    if_neg (not_or.mpr ⟨hlh, hrh⟩), tailPipe, hscrub, hcol, hps]

/-- Claim C9: name normalization is idempotent:
`normalize_name (normalize_name x) = normalize_name x` for every input. -/
theorem c9_normalize_idempotent (x : List ℕ) :
    normalize_name (normalize_name x) = normalize_name x := by
  apply normalize_fixes
  · exact fun c hc => (mem_normalize x c hc).1
  · exact fun c hc => ⟨(mem_normalize x c hc).2.1, (mem_normalize x c hc).2.2.1,
      (mem_normalize x c hc).2.2.2.1⟩
  · exact fun c hc => (mem_normalize x c hc).2.2.2.2
  · simp only [normalize_name, tailPipe]
    exact chain'_pstrip _ (chain'_collapseAux _ _)
  · simp only [normalize_name, tailPipe]
    exact fun c hc => head?_lstrip _ c hc
  · simp only [normalize_name, tailPipe]
    exact fun c hc => getLast?_pstrip _ c hc

/-! ## C5: hemisphere prefix stripping -/

/-- Starting a collapse inside or outside a whitespace run changes the
result by at most one leading space, which stripping removes. -/
theorem pstrip_collapse_flag (m : List ℕ) :
    pstrip (collapseAux true m) = pstrip (collapseAux false m) := by
  cases m with
  | nil => rfl
  | cons a r =>
    by_cases ha : isSpaceCh a = true
    · have hT : collapseAux true (a :: r) = collapseAux true r := by
        rw [collapseAux, if_pos ha, if_pos rfl]
      have hF : collapseAux false (a :: r) = 32 :: collapseAux true r := by
        rw [collapseAux, if_pos ha, if_neg Bool.false_ne_true]
      rw [hT, hF, pstrip_cons32]
    · have hT : collapseAux true (a :: r) = a :: collapseAux false r := by
        rw [collapseAux, if_neg ha]
      have hF : collapseAux false (a :: r) = a :: collapseAux false r := by
        rw [collapseAux, if_neg ha]
      rw [hT, hF]

/-- An in-run collapse skips a leading all-whitespace block. -/
theorem collapseAux_true_space_append (sp m : List ℕ)
    (h : ∀ c ∈ sp, isSpaceCh c = true) :
    collapseAux true (sp ++ m) = collapseAux true m := by
  induction sp with
  | nil => rfl
  | cons a sp' ih =>
    rw [List.cons_append, collapseAux, if_pos (h a (List.mem_cons_self a sp')),
      if_pos rfl, ih (fun c hc => h c (List.mem_cons_of_mem a hc))]

/-- `scrub` passes a leading all-whitespace block through unchanged. -/
theorem scrub_space_append (sp t : List ℕ) (hsp : ∀ c ∈ sp, isSpaceCh c = true) :
    scrub (sp ++ t) = sp ++ scrub t := by
  have h1 : sp.filter (fun c => c ≠ 44) = sp :=
    List.filter_eq_self.mpr (fun a ha => by
      have := (isSpaceCh_spec a).mp (hsp a ha)
      simp
      omega)
  have h2 : sp.map (fun c => if c = 45 ∨ c = 95 then 32 else c) = sp :=
    map_fix _ _ (fun c hc => by
      have := (isSpaceCh_spec c).mp (hsp c hc)
      rw [if_neg (by omega)])
  rw [scrub, scrub, List.filter_append, h1, List.map_append, h2]

/-- The pipeline tail ignores a leading all-whitespace block: the collapse
turns it into one space and the final strip removes it. -/
theorem tailPipe_space_append (sp t : List ℕ)
    (hsp : ∀ c ∈ sp, isSpaceCh c = true) :
    tailPipe (sp ++ t) = tailPipe t := by
  cases sp with
  | nil => rw [List.nil_append]
  | cons a sp' =>
    have ha := hsp a (List.mem_cons_self a sp')
    have hsp' := fun c hc => hsp c (List.mem_cons_of_mem a hc)
    rw [tailPipe, scrub_space_append _ _ hsp, collapseWS, List.cons_append,
      collapseAux, if_pos ha, if_neg Bool.false_ne_true,
      collapseAux_true_space_append sp' _ hsp', pstrip_cons32,
      pstrip_collapse_flag, ← collapseWS, ← tailPipe]

/-- Dropping a leading `"lh-"` or `"rh-"` from a name gives the same
normalization as the bare name, provided the bare name's
lowercased/stripped form does not itself begin with a strippable
prefix. -/
theorem normalize_hemi (code : List ℕ) (hcode : code = lhCode ∨ code = rhCode)
    (s : List ℕ)
    (hctx : ¬((pstrip (s.map lowerCh)).take 4 = ctxCode))
    (hlh : ¬((pstrip (s.map lowerCh)).take 3 = lhCode))
    (hrh : ¬((pstrip (s.map lowerCh)).take 3 = rhCode)) :
    normalize_name (code ++ s) = normalize_name s := by
  obtain ⟨x, hc3, hxns, hx99⟩ :
      ∃ x, code = [x, 104, 45] ∧ isSpaceCh x = false ∧ x ≠ 99 := by
    rcases hcode with h | h <;> subst h
    · exact ⟨108, rfl, by decide, by decide⟩
    · exact ⟨114, rfl, by decide, by decide⟩
  have hchars : ∀ c ∈ code, lowerCh c = c := by
    rcases hcode with h | h <;> subst h <;> decide
  have hmapc : (code ++ s).map lowerCh = code ++ s.map lowerCh := by
    rw [List.map_append, map_fix _ _ hchars]
  have hrsc : rstripStr code = code := by rw [hc3]; rfl
  by_cases hB : rstripStr (s.map lowerCh) = []
  · have hpsw : pstrip (s.map lowerCh) = [] := by rw [pstrip, hB]; rfl
    have hpsl : pstrip (code ++ s.map lowerCh) = code := by
      rw [pstrip, rstrip_append, if_pos hB, hrsc, lstripStr, hc3,
        List.dropWhile_cons, if_neg (by simp [hxns])]
    rw [normalize_name, hmapc, hpsl, normalize_name, hpsw]
    have hctxc : ctxDrop code = code := by
      rw [ctxDrop, if_neg]
      intro h
      have hl := congrArg List.length h
      rw [hc3] at hl
      simp [ctxCode] at hl
    have htk3 : code.take 3 = code := by
      rw [hc3]
      rfl
    have hhemc : hemiDrop code = [] := by
      rw [hemiDrop, if_pos (by rw [htk3]; exact hcode), hc3]
      rfl
    have hctxe : ctxDrop ([] : List ℕ) = [] := by
      rw [ctxDrop, if_neg (by decide)]
    have hheme : hemiDrop ([] : List ℕ) = [] := by
      rw [hemiDrop, if_neg (by decide)]
    rw [hctxc, hhemc, hctxe, hheme]
  · have hpsl : pstrip (code ++ s.map lowerCh) =
        code ++ rstripStr (s.map lowerCh) := by
      rw [pstrip, rstrip_append, if_neg hB, hc3, List.cons_append, lstripStr,
        List.dropWhile_cons, if_neg (by simp [hxns])]
    rw [normalize_name, hmapc, hpsl, normalize_name]
    have hctxL : ctxDrop (code ++ rstripStr (s.map lowerCh)) =
        code ++ rstripStr (s.map lowerCh) := by
      rw [ctxDrop, if_neg]
      intro h
      rw [hc3] at h
      have hx : x = 99 := by
        have h0 := congrArg (fun l => l.head?) h
        simp [ctxCode] at h0
        exact h0
      exact hx99 hx
    have hhemL : hemiDrop (code ++ rstripStr (s.map lowerCh)) =
        rstripStr (s.map lowerCh) := by
      rw [hemiDrop, if_pos, hc3]
      · rfl
      · have : (code ++ rstripStr (s.map lowerCh)).take 3 = code := by
          rw [hc3]
          rfl
        rw [this]
        exact hcode
    have hctxR : ctxDrop (pstrip (s.map lowerCh)) = pstrip (s.map lowerCh) := by
      rw [ctxDrop, if_neg hctx]
    have hhemR : hemiDrop (pstrip (s.map lowerCh)) = pstrip (s.map lowerCh) := by
      rw [hemiDrop, if_neg (not_or.mpr ⟨hlh, hrh⟩)]
    rw [hctxL, hhemL, hctxR, hhemR, pstrip, lstripStr]
    conv_lhs => rw [← @List.takeWhile_append_dropWhile _ isSpaceCh
      (rstripStr (s.map lowerCh))]
    exact tailPipe_space_append _ _ (fun c hc => List.mem_takeWhile_imp hc)

/-- Counterexample to claim C5 as stated: the code only strips the
abbreviated `"lh-"`/`"rh-"` hemisphere tokens, never `"left-"`/`"right-"`
(that removal is commented out in the source), so
`normalize_name("left-a") = "left a"` differs from `normalize_name("a")`. -/
theorem c5_counterexample_left_not_stripped :
    normalize_name (leftCode ++ [97]) ≠ normalize_name [97] := by decide

/-- Claim C5 (amended): `normalize_name` is total, lower-cases, strips a
leading `"ctx-"` then a leading `"lh-"`/`"rh-"` (but not
`"left-"`/`"right-"`), removes commas, maps dashes and underscores to
spaces, collapses whitespace and trims; for every `s` whose
lowercased/stripped form does not itself start with `"ctx-"`, `"lh-"` or
`"rh-"`, `normalize_name("lh-" + s) = normalize_name("rh-" + s) =
normalize_name(s)`. -/
theorem c5_hemi_token_strip (s : List ℕ)
    (hctx : ¬((pstrip (s.map lowerCh)).take 4 = ctxCode))
    (hlh : ¬((pstrip (s.map lowerCh)).take 3 = lhCode))
    (hrh : ¬((pstrip (s.map lowerCh)).take 3 = rhCode)) :
    normalize_name (lhCode ++ s) = normalize_name s ∧
    normalize_name (rhCode ++ s) = normalize_name s :=
  ⟨normalize_hemi lhCode (Or.inl rfl) s hctx hlh hrh,
   normalize_hemi rhCode (Or.inr rfl) s hctx hlh hrh⟩

/-- Witness for C5's amended statement at the concrete name `"a"`. -/
theorem c5_hemi_token_strip_witness :
    (¬((pstrip ([97].map lowerCh)).take 4 = ctxCode)) ∧
    (¬((pstrip ([97].map lowerCh)).take 3 = lhCode)) ∧
    (¬((pstrip ([97].map lowerCh)).take 3 = rhCode)) ∧
    (normalize_name (lhCode ++ [97]) = normalize_name [97] ∧
     normalize_name (rhCode ++ [97]) = normalize_name [97]) :=
  ⟨by decide, by decide, by decide,
    c5_hemi_token_strip [97] (by decide) (by decide) (by decide)⟩

/-! ## Rounding and bounding-box lemmas (towards C3, C4, C7) -/

/-- `np.round` of an integer is that integer. -/
theorem roundEven_intCast (z : ℤ) : roundEven (z : ℚ) = z := by
  simp only [roundEven, Int.floor_intCast, sub_self]
  norm_num

/-- `np.round` never rounds up by more than half. -/
theorem roundEven_le (q : ℚ) : (roundEven q : ℚ) ≤ q + 1 / 2 := by
  have h1 := Int.floor_le q
  have h2 := Int.lt_floor_add_one q
  simp only [roundEven]
  split_ifs with ha hb hc <;> push_cast <;> linarith

/-- `np.round` never rounds down by more than half. -/
theorem roundEven_ge (q : ℚ) : q - 1 / 2 ≤ (roundEven q : ℚ) := by
  have h1 := Int.floor_le q
  have h2 := Int.lt_floor_add_one q
  simp only [roundEven]
  split_ifs with ha hb hc <;> push_cast <;> linarith

/-- A value rounded up by exactly half is even (the tie rule). -/
theorem roundEven_tie_up (q : ℚ) (h : (roundEven q : ℚ) = q + 1 / 2) :
    roundEven q % 2 = 0 := by
  have h1 := Int.floor_le q
  have h2 := Int.lt_floor_add_one q
  simp only [roundEven] at h ⊢
  split_ifs at h ⊢ with ha hb hc
  · push_cast at h
    linarith
  · push_cast at h
    linarith
  · exact hc
  · omega

/-- A value rounded down by exactly half is even (the tie rule). -/
theorem roundEven_tie_down (q : ℚ) (h : (roundEven q : ℚ) = q - 1 / 2) :
    roundEven q % 2 = 0 := by
  have h1 := Int.floor_le q
  have h2 := Int.lt_floor_add_one q
  simp only [roundEven] at h ⊢
  split_ifs at h ⊢ with ha hb hc
  · push_cast at h
    linarith
  · push_cast at h
    linarith
  · exact hc
  · push_cast at h
    linarith

/-- `np.round` is monotone. -/
theorem roundEven_mono (a b : ℚ) (hab : a ≤ b) : roundEven a ≤ roundEven b := by
  by_contra hlt
  push_neg at hlt
  have h1 : (roundEven b : ℚ) + 1 ≤ (roundEven a : ℚ) := by
    exact_mod_cast Int.add_one_le_of_lt hlt
  have h2 := roundEven_le a
  have h3 := roundEven_ge a
  have h4 := roundEven_le b
  have h5 := roundEven_ge b
  have hb_eq : (roundEven b : ℚ) = b - 1 / 2 := le_antisymm (by linarith) h5
  have ha_eq : (roundEven a : ℚ) = a + 1 / 2 := le_antisymm h2 (by linarith)
  have hra : (roundEven a : ℚ) = (roundEven b : ℚ) + 1 := by linarith
  have e1 := roundEven_tie_up a ha_eq
  have e2 := roundEven_tie_down b hb_eq
  have hz : roundEven a = roundEven b + 1 := by exact_mod_cast hra
  omega

/-- `np.round` commutes with binary minima. -/
theorem roundEven_min (a b : ℚ) :
    roundEven (min a b) = min (roundEven a) (roundEven b) := by
  rcases le_total a b with h | h
  · rw [min_eq_left h, min_eq_left (roundEven_mono a b h)]
  · rw [min_eq_right h, min_eq_right (roundEven_mono b a h)]

/-- `np.round` commutes with binary maxima. -/
theorem roundEven_max (a b : ℚ) :
    roundEven (max a b) = max (roundEven a) (roundEven b) := by
  rcases le_total a b with h | h
  · rw [max_eq_right h, max_eq_right (roundEven_mono a b h)]
  · rw [max_eq_left h, max_eq_left (roundEven_mono b a h)]

/-- Folding a minimum from a seed splits as a binary minimum. -/
theorem foldl_min_cons {α : Type} [LinearOrder α] (c y : α) (ys : List α) :
    List.foldl min c (y :: ys) = min c (List.foldl min y ys) := by
  induction ys generalizing c y with
  | nil => rfl
  | cons z zs ih =>
    have hL : List.foldl min c (y :: z :: zs) =
        min (min c y) (List.foldl min z zs) := by
      rw [List.foldl_cons]
      exact ih (min c y) z
    rw [hL, ih y z, min_assoc]

/-- Folding a maximum from a seed splits as a binary maximum. -/
theorem foldl_max_cons {α : Type} [LinearOrder α] (c y : α) (ys : List α) :
    List.foldl max c (y :: ys) = max c (List.foldl max y ys) := by
  induction ys generalizing c y with
  | nil => rfl
  | cons z zs ih =>
    have hL : List.foldl max c (y :: z :: zs) =
        max (max c y) (List.foldl max z zs) := by
      rw [List.foldl_cons]
      exact ih (max c y) z
    rw [hL, ih y z, max_assoc]

/-- `np.round` commutes with a fold of minima. -/
theorem roundEven_foldl_min (x : ℚ) (xs : List ℚ) :
    roundEven (List.foldl min x xs) =
      List.foldl min (roundEven x) (xs.map roundEven) := by
  induction xs generalizing x with
  | nil => rfl
  | cons z zs ih =>
    rw [List.foldl_cons, ih, roundEven_min, List.map_cons, List.foldl_cons]

/-- `np.round` commutes with a fold of maxima. -/
theorem roundEven_foldl_max (x : ℚ) (xs : List ℚ) :
    roundEven (List.foldl max x xs) =
      List.foldl max (roundEven x) (xs.map roundEven) := by
  induction xs generalizing x with
  | nil => rfl
  | cons z zs ih =>
    rw [List.foldl_cons, ih, roundEven_max, List.map_cons, List.foldl_cons]

/-- `np.round` commutes with the minimum of a nonempty list. -/
theorem roundEven_foldMin (L : List ℚ) (hL : L ≠ []) (d : ℚ) (e : ℤ) :
    roundEven (foldMin L d) = foldMin (L.map roundEven) e := by
  obtain ⟨x, xs, rfl⟩ := List.exists_cons_of_ne_nil hL
  simp only [foldMin, List.map_cons]
  exact roundEven_foldl_min x xs

/-- `np.round` commutes with the maximum of a nonempty list. -/
theorem roundEven_foldMax (L : List ℚ) (hL : L ≠ []) (d : ℚ) (e : ℤ) :
    roundEven (foldMax L d) = foldMax (L.map roundEven) e := by
  obtain ⟨x, xs, rfl⟩ := List.exists_cons_of_ne_nil hL
  simp only [foldMax, List.map_cons]
  exact roundEven_foldl_max x xs

/-- The minimum over an append of nonempty lists is the binary minimum of
the two minima. -/
theorem foldMin_append {α : Type} [LinearOrder α] (L M : List α)
    (hL : L ≠ []) (hM : M ≠ []) (d : α) :
    foldMin (L ++ M) d = min (foldMin L d) (foldMin M d) := by
  obtain ⟨x, xs, rfl⟩ := List.exists_cons_of_ne_nil hL
  obtain ⟨y, ys, rfl⟩ := List.exists_cons_of_ne_nil hM
  simp only [List.cons_append, foldMin]
  rw [List.foldl_append, foldl_min_cons]

/-- The maximum over an append of nonempty lists is the binary maximum of
the two maxima. -/
theorem foldMax_append {α : Type} [LinearOrder α] (L M : List α)
    (hL : L ≠ []) (hM : M ≠ []) (d : α) :
    foldMax (L ++ M) d = max (foldMax L d) (foldMax M d) := by
  obtain ⟨x, xs, rfl⟩ := List.exists_cons_of_ne_nil hL
  obtain ⟨y, ys, rfl⟩ := List.exists_cons_of_ne_nil hM
  simp only [List.cons_append, foldMax]
  rw [List.foldl_append, foldl_max_cons]

/-- A projection of the 8-corner list is never empty. -/
theorem cornerProj_ne_nil (s : Fin 3 → ℕ) (f : (Fin 3 → ℚ) → ℤ) :
    (cornerList s).map f ≠ [] := by
  simp [cornerList, bools3]

/-- A projection of the mapped right-corner list is never empty. -/
theorem rMappedProj_ne_nil (l r : Volume) (f : (Fin 3 → ℚ) → ℤ) :
    (rMapped l r).map f ≠ [] := by
  simp [rMapped, cornerList, bools3]

/-- A rational projection of the 8-corner list is never empty. -/
theorem cornerProjQ_ne_nil (s : Fin 3 → ℕ) (f : (Fin 3 → ℚ) → ℚ) :
    (cornerList s).map f ≠ [] := by
  simp [cornerList, bools3]

/-- A rational projection of the mapped right-corner list is never
empty. -/
theorem rMappedProjQ_ne_nil (l r : Volume) (f : (Fin 3 → ℚ) → ℚ) :
    (rMapped l r).map f ≠ [] := by
  simp [rMapped, cornerList, bools3]

/-! ## C4: combined shape equals the rounded corner-union bounding box -/

/-- A successful stitch returns exactly the built structure. -/
theorem combine_hemis_some (l r : Volume) (c : Combined)
    (h : combine_hemis l r = some c) : c = mkCombined l r := by
  rw [combine_hemis] at h
  split at h
  · cases h
    rfl
  · cases h

/-- The code's per-volume minimum equals the claim's minimum over that
volume's rounded corners. -/
theorem lboxMin_as_rounded (l : Volume) (i : Fin 3) :
    lboxMin l i = foldMin ((cornerList l.shape).map (fun c => roundEven (c i))) 0 := by
  rw [lboxMin, roundEven_foldMin _ (cornerProjQ_ne_nil _ _) 0 0, List.map_map]
  simp only [Function.comp_def]

/-- Same for the per-volume maximum. -/
theorem lboxMax_as_rounded (l : Volume) (i : Fin 3) :
    lboxMax l i = foldMax ((cornerList l.shape).map (fun c => roundEven (c i))) 0 := by
  rw [lboxMax, roundEven_foldMax _ (cornerProjQ_ne_nil _ _) 0 0, List.map_map]
  simp only [Function.comp_def]

/-- Same for the mapped right corners. -/
theorem rboxMin_as_rounded (l r : Volume) (i : Fin 3) :
    rboxMin l r i = foldMin ((rMapped l r).map (fun c => roundEven (c i))) 0 := by
  rw [rboxMin, roundEven_foldMin _ (rMappedProjQ_ne_nil _ _ _) 0 0, List.map_map]
  simp only [Function.comp_def]

/-- Same for the mapped right corners, maximum. -/
theorem rboxMax_as_rounded (l r : Volume) (i : Fin 3) :
    rboxMax l r i = foldMax ((rMapped l r).map (fun c => roundEven (c i))) 0 := by
  rw [rboxMax, roundEven_foldMax _ (rMappedProjQ_ne_nil _ _ _) 0 0, List.map_map]
  simp only [Function.comp_def]

/-- Claim C4: for volumes with invertible affines, a successfully stitched
volume's shape per axis is `bmax - bmin + 1`, where `bmin`/`bmax` are the
per-axis min/max, rounded to nearest, over the union of the left volume's
corner indices and the right volume's corners mapped through
`inv(left.affine) @ right.affine`. -/
theorem c4_combined_shape (l r : Volume) (c : Combined)
    (hdl : l.affine.det ≠ 0) (hdr : r.affine.det ≠ 0)
    (h : combine_hemis l r = some c) :
    ∀ i, c.shape i = specBmax l r i - specBmin l r i + 1 := by
  rw [combine_hemis_some l r c h]
  intro i
  show combShape l r i = specBmax l r i - specBmin l r i + 1
  have hmin : bminC l r i = specBmin l r i := by
    rw [bminC, lboxMin_as_rounded, rboxMin_as_rounded, specBmin,
      foldMin_append _ _ (cornerProj_ne_nil _ _) (rMappedProj_ne_nil _ _ _) 0]
  have hmax : bmaxC l r i = specBmax l r i := by
    rw [bmaxC, lboxMax_as_rounded, rboxMax_as_rounded, specBmax,
      foldMax_append _ _ (cornerProj_ne_nil _ _) (rMappedProj_ne_nil _ _ _) 0]
  rw [combShape, hmin, hmax]

/-! ## C3: verbatim placement of the left volume -/

/-- Counterexample machinery uses `omega`-friendly box membership. -/
theorem inBox_iff (off : Fin 3 → ℤ) (s : Fin 3 → ℕ) (idx : Fin 3 → ℤ) :
    inBox off s idx = true ↔ ∀ i, off i ≤ idx i ∧ idx i < off i + (s i : ℤ) := by
  rw [inBox, decide_eq_true_eq]

/-- Claim C3 (amended): reading a successfully stitched volume at the left
sub-box location gives the left volume's voxel values verbatim, PROVIDED
the right volume's placement contributes no nonzero value there (in
particular whenever the sub-boxes are disjoint); placement is additive, so
an overlapping nonzero right voxel is added instead (see the
counterexample). -/
theorem c3_left_placement (l r : Volume) (c : Combined)
    (h : combine_hemis l r = some c)
    (hz : ∀ idx : Fin 3 → ℤ, inBox (offR l r) r.shape idx = true →
      inBox (offL l r) l.shape idx = true →
      r.data (fun i => idx i - offR l r i) = 0) :
    ∀ v : Fin 3 → ℤ, (∀ i, 0 ≤ v i ∧ v i < (l.shape i : ℤ)) →
      c.data (fun i => offL l r i + v i) = l.data v := by
  rw [combine_hemis_some l r c h]
  intro v hv
  show combData l r (fun i => offL l r i + v i) = l.data v
  have hin : inBox (offL l r) l.shape (fun i => offL l r i + v i) = true := by
    rw [inBox_iff]
    intro i
    obtain ⟨h1, h2⟩ := hv i
    omega
  have harg : (fun i => (offL l r i + v i) - offL l r i) = v := by
    funext i
    ring
  rw [combData, if_pos hin, harg]
  by_cases hR : inBox (offR l r) r.shape (fun i => offL l r i + v i) = true
  · rw [if_pos hR, hz _ hR hin, add_zero]
  · rw [if_neg hR, add_zero]

/-! ## C7: the side mask only takes values 0, 1, 2 on disjoint input -/

/-- Claim C7: the side mask adds 1 on the left sub-box where the left
value is nonzero and 2 on the right sub-box where the right value is
nonzero; when no combined voxel carries nonzero values from both volumes
(disjoint nonzero occupancy), every mask value is 0, 1 or 2 — never 3. -/
theorem c7_side_mask (l r : Volume) (c : Combined)
    (h : combine_hemis l r = some c)
    (hdisj : ∀ idx : Fin 3 → ℤ,
      ¬(inBox (offL l r) l.shape idx = true ∧
        0 < l.data (fun i => idx i - offL l r i) ∧
        inBox (offR l r) r.shape idx = true ∧
        0 < r.data (fun i => idx i - offR l r i))) :
    ∀ idx : Fin 3 → ℤ, c.mask idx = 0 ∨ c.mask idx = 1 ∨ c.mask idx = 2 := by
  rw [combine_hemis_some l r c h]
  intro idx
  show combMask l r idx = 0 ∨ combMask l r idx = 1 ∨ combMask l r idx = 2
  rw [combMask]
  by_cases hL : inBox (offL l r) l.shape idx = true
  · by_cases hLd : 0 < l.data (fun i => idx i - offL l r i)
    · by_cases hR : inBox (offR l r) r.shape idx = true
      · by_cases hRd : 0 < r.data (fun i => idx i - offR l r i)
        · exact absurd ⟨hL, hLd, hR, hRd⟩ (hdisj idx)
        · rw [if_pos hL, if_pos hLd, if_pos hR, if_neg hRd]
          right
          left
          rfl
      · rw [if_pos hL, if_pos hLd, if_neg hR]
        right
        left
        rfl
    · by_cases hR : inBox (offR l r) r.shape idx = true
      · by_cases hRd : 0 < r.data (fun i => idx i - offR l r i)
        · rw [if_pos hL, if_neg hLd, if_pos hR, if_pos hRd]
          right
          right
          rfl
        · rw [if_pos hL, if_neg hLd, if_pos hR, if_neg hRd]
          left
          rfl
      · rw [if_pos hL, if_neg hLd, if_neg hR]
        left
        rfl
  · by_cases hR : inBox (offR l r) r.shape idx = true
    · by_cases hRd : 0 < r.data (fun i => idx i - offR l r i)
      · rw [if_neg hL, if_pos hR, if_pos hRd]
        right
        right
        rfl
      · rw [if_neg hL, if_pos hR, if_neg hRd]
        left
        rfl
    · rw [if_neg hL, if_neg hR]
      left
      rfl

/-! ## Concrete stitcher instances -/

/-- The rational inverse of the identity affine is the identity. -/
theorem affInv_one : affInv (1 : Matrix (Fin 4) (Fin 4) ℚ) = 1 := by
  rw [affInv, Matrix.det_one, Matrix.adjugate_one, inv_one, one_smul]

/-- Applying the identity transform to a point is the identity. -/
theorem mapCorner_one (c : Fin 3 → ℚ) : mapCorner 1 c = c := by
  funext i
  have h3 : i.castSucc ≠ (3 : Fin 4) := by
    intro h
    have hv := congrArg Fin.val h
    simp [Fin.castSucc] at hv
    omega
  rw [mapCorner, Matrix.one_apply_ne h3, add_zero]
  have hsum : ∀ j : Fin 3,
      (1 : Matrix (Fin 4) (Fin 4) ℚ) i.castSucc j.castSucc * c j =
        (if j = i then c j else 0) := by
    intro j
    rw [Matrix.one_apply]
    by_cases hij : i.castSucc = j.castSucc
    · rw [if_pos hij, one_mul, if_pos (Fin.castSucc_inj.mp hij).symm]
    · rw [if_neg hij, zero_mul, if_neg (fun hji => hij (by rw [hji]))]
  rw [Finset.sum_congr rfl (fun j _ => hsum j)]
  simp

/-- For identity-affine volumes, `right2left` is the identity. -/
theorem right2left_unit (a b : ℕ) :
    right2left (unitVol a) (unitVol b) = 1 := by
  rw [right2left, show (unitVol a).affine = 1 from rfl,
    show (unitVol b).affine = 1 from rfl, affInv_one, one_mul]

/-- For identity-affine volumes, the mapped right corners are the right
corners themselves. -/
theorem rMapped_unit (a b : ℕ) :
    rMapped (unitVol a) (unitVol b) = cornerList ((unitVol b).shape) := by
  rw [rMapped, right2left_unit]
  exact map_fix _ _ (fun c _ => mapCorner_one c)

/-- A one-voxel grid's corner projections are all zero. -/
theorem cornerProj_unit (i : Fin 3) :
    (cornerList (fun _ => 1)).map (fun c => c i) = [0, 0, 0, 0, 0, 0, 0, 0] := by
  simp [cornerList, bools3, cornerAt]

/-- `np.round 0 = 0`. -/
theorem roundEven_zero : roundEven (0 : ℚ) = 0 := by
  rw [show (0 : ℚ) = ((0 : ℤ) : ℚ) from by norm_num, roundEven_intCast]

/-- The minimum of the eight zero corner projections is zero. -/
theorem foldMin_eightZeros :
    foldMin ([0, 0, 0, 0, 0, 0, 0, 0] : List ℚ) 0 = 0 := by
  simp [foldMin]

/-- The maximum of the eight zero corner projections is zero. -/
theorem foldMax_eightZeros :
    foldMax ([0, 0, 0, 0, 0, 0, 0, 0] : List ℚ) 0 = 0 := by
  simp [foldMax]

/-- One-voxel bounding boxes sit at zero. -/
theorem lboxMin_unit (d : ℕ) (i : Fin 3) : lboxMin (unitVol d) i = 0 := by
  rw [lboxMin, show (unitVol d).shape = (fun _ => 1) from rfl, cornerProj_unit,
    foldMin_eightZeros, roundEven_zero]

/-- One-voxel bounding boxes end at zero. -/
theorem lboxMax_unit (d : ℕ) (i : Fin 3) : lboxMax (unitVol d) i = 0 := by
  rw [lboxMax, show (unitVol d).shape = (fun _ => 1) from rfl, cornerProj_unit,
    foldMax_eightZeros, roundEven_zero]

/-- The mapped right one-voxel box sits at zero. -/
theorem rboxMin_unit (a b : ℕ) (i : Fin 3) :
    rboxMin (unitVol a) (unitVol b) i = 0 := by
  rw [rboxMin, rMapped_unit, show (unitVol b).shape = (fun _ => 1) from rfl,
    cornerProj_unit, foldMin_eightZeros, roundEven_zero]

/-- The mapped right one-voxel box ends at zero. -/
theorem rboxMax_unit (a b : ℕ) (i : Fin 3) :
    rboxMax (unitVol a) (unitVol b) i = 0 := by
  rw [rboxMax, rMapped_unit, show (unitVol b).shape = (fun _ => 1) from rfl,
    cornerProj_unit, foldMax_eightZeros, roundEven_zero]

/-- Two one-voxel volumes always broadcast. -/
theorem extOk_unit (a b : ℕ) : extOk (unitVol a) (unitVol b) = true := by
  rw [extOk, decide_eq_true_eq]
  intro i
  rw [lboxMin_unit, lboxMax_unit, rboxMin_unit, rboxMax_unit,
    show (unitVol a).shape = (fun _ => 1) from rfl,
    show (unitVol b).shape = (fun _ => 1) from rfl]
  norm_num

/-- Stitching two one-voxel volumes succeeds. -/
theorem combine_unit (a b : ℕ) :
    combine_hemis (unitVol a) (unitVol b) = some (mkCombined (unitVol a) (unitVol b)) := by
  rw [combine_hemis, if_pos (extOk_unit a b)]

/-- Both one-voxel sub-boxes are placed at the combined origin. -/
theorem offL_unit (a b : ℕ) (i : Fin 3) : offL (unitVol a) (unitVol b) i = 0 := by
  rw [offL, bminC, lboxMin_unit, rboxMin_unit]
  norm_num

/-- The right sub-box offset is also zero. -/
theorem offR_unit (a b : ℕ) (i : Fin 3) : offR (unitVol a) (unitVol b) i = 0 := by
  rw [offR, bminC, lboxMin_unit, rboxMin_unit]
  norm_num

/-- The combined origin lies in both one-voxel sub-boxes. -/
theorem inBox_unit (a b : ℕ) (w : Fin 3 → ℤ) (hw : ∀ i, w i = 0) :
    inBox w (fun _ => 1) (fun _ => 0) = true := by
  rw [inBox_iff]
  intro i
  rw [hw i]
  norm_num

/-- The combined voxel of two overlapping one-voxel volumes is the SUM of
the two values: placement is additive. -/
theorem combData_unit (a b : ℕ) :
    combData (unitVol a) (unitVol b) (fun _ => 0) = a + b := by
  rw [combData,
    if_pos (by
      rw [show (unitVol a).shape = (fun _ => 1) from rfl]
      exact inBox_unit a b _ (offL_unit a b)),
    if_pos (by
      rw [show (unitVol b).shape = (fun _ => 1) from rfl]
      exact inBox_unit a b _ (offR_unit a b))]
  rfl

/-- Counterexample to claim C3 as stated: two one-voxel volumes at the
same grid location with values 5 and 7 stitch successfully, and the
combined voxel at the left sub-box location reads 12 = 5 + 7, not the left
volume's value 5 — the additive placement sums overlapping values. -/
theorem c3_counterexample_additive_overlap :
    (combine_hemis (unitVol 5) (unitVol 7)).map (fun c => c.data (fun _ => 0)) =
      some 12 ∧ (12 : ℕ) ≠ 5 := by
  constructor
  · rw [combine_unit, Option.map_some']
    rw [show (mkCombined (unitVol 5) (unitVol 7)).data =
      combData (unitVol 5) (unitVol 7) from rfl]
    rw [combData_unit]
  · decide

/-- Witness for C3's amended statement: stitching values 5 and 0 (right
contributes nothing), the left sub-box reads back 5. -/
theorem c3_left_placement_witness :
    combine_hemis (unitVol 5) (unitVol 0) =
      some (mkCombined (unitVol 5) (unitVol 0)) ∧
    (∀ idx : Fin 3 → ℤ,
      inBox (offR (unitVol 5) (unitVol 0)) (unitVol 0).shape idx = true →
      inBox (offL (unitVol 5) (unitVol 0)) (unitVol 5).shape idx = true →
      (unitVol 0).data (fun i => idx i - offR (unitVol 5) (unitVol 0) i) = 0) ∧
    (∀ v : Fin 3 → ℤ, (∀ i, 0 ≤ v i ∧ v i < ((unitVol 5).shape i : ℤ)) →
      (mkCombined (unitVol 5) (unitVol 0)).data
          (fun i => offL (unitVol 5) (unitVol 0) i + v i) =
        (unitVol 5).data v) :=
  ⟨combine_unit 5 0, fun _ _ _ => rfl,
    c3_left_placement _ _ _ (combine_unit 5 0) (fun _ _ _ => rfl)⟩

/-- Witness for C4 at two concrete one-voxel identity-affine volumes. -/
theorem c4_combined_shape_witness :
    (unitVol 5).affine.det ≠ 0 ∧ (unitVol 7).affine.det ≠ 0 ∧
    combine_hemis (unitVol 5) (unitVol 7) =
      some (mkCombined (unitVol 5) (unitVol 7)) ∧
    (∀ i, (mkCombined (unitVol 5) (unitVol 7)).shape i =
      specBmax (unitVol 5) (unitVol 7) i -
        specBmin (unitVol 5) (unitVol 7) i + 1) := by
  have hd5 : (unitVol 5).affine.det ≠ 0 := by
    rw [show (unitVol 5).affine = 1 from rfl, Matrix.det_one]
    exact one_ne_zero
  have hd7 : (unitVol 7).affine.det ≠ 0 := by
    rw [show (unitVol 7).affine = 1 from rfl, Matrix.det_one]
    exact one_ne_zero
  exact ⟨hd5, hd7, combine_unit 5 7,
    c4_combined_shape _ _ _ hd5 hd7 (combine_unit 5 7)⟩

/-- Witness for C7: stitching values 5 and 0 has disjoint nonzero
occupancy, so every mask value is 0, 1 or 2. -/
theorem c7_side_mask_witness :
    combine_hemis (unitVol 5) (unitVol 0) =
      some (mkCombined (unitVol 5) (unitVol 0)) ∧
    (∀ idx : Fin 3 → ℤ,
      ¬(inBox (offL (unitVol 5) (unitVol 0)) (unitVol 5).shape idx = true ∧
        0 < (unitVol 5).data
          (fun i => idx i - offL (unitVol 5) (unitVol 0) i) ∧
        inBox (offR (unitVol 5) (unitVol 0)) (unitVol 0).shape idx = true ∧
        0 < (unitVol 0).data
          (fun i => idx i - offR (unitVol 5) (unitVol 0) i))) ∧
    (∀ idx : Fin 3 → ℤ,
      (mkCombined (unitVol 5) (unitVol 0)).mask idx = 0 ∨
      (mkCombined (unitVol 5) (unitVol 0)).mask idx = 1 ∨
      (mkCombined (unitVol 5) (unitVol 0)).mask idx = 2) := by
  have hdisj : ∀ idx : Fin 3 → ℤ,
      ¬(inBox (offL (unitVol 5) (unitVol 0)) (unitVol 5).shape idx = true ∧
        0 < (unitVol 5).data
          (fun i => idx i - offL (unitVol 5) (unitVol 0) i) ∧
        inBox (offR (unitVol 5) (unitVol 0)) (unitVol 0).shape idx = true ∧
        0 < (unitVol 0).data
          (fun i => idx i - offR (unitVol 5) (unitVol 0) i)) :=
    fun _ h => absurd h.2.2.2 (lt_irrefl 0)
  exact ⟨combine_unit 5 0, hdisj,
    c7_side_mask _ _ _ (combine_unit 5 0) hdisj⟩

/-! ## Sanity: `affInv` is the matrix inverse -/

/-- The adjugate-over-determinant formula is Mathlib's matrix inverse. -/
theorem affInv_eq_inv (A : Matrix (Fin 4) (Fin 4) ℚ) : affInv A = A⁻¹ := by
  rw [affInv, Matrix.inv_def, Ring.inverse_eq_inv]

/-- For an invertible affine, `affInv` is a genuine right inverse, so
`right2left` really maps right voxel indices into left voxel space. -/
theorem affInv_mul (A : Matrix (Fin 4) (Fin 4) ℚ) (h : A.det ≠ 0) :
    A * affInv A = 1 := by
  rw [affInv_eq_inv]
  exact Matrix.mul_nonsing_inv A (Ne.isUnit h)
